import Mathlib

/-!
Verification of the `minhash` package (Go): a MinWise-Hashing signature
engine.  The Go source (`minhash.go`) is shallowly embedded below:

* Go `uint64` values are modelled as `Nat` with arithmetic taken modulo
  `2 ^ 64` exactly where the Go code relies on wraparound;
* a Go byte slice is modelled as the list of its byte values, and a Go
  string as the list of its bytes (Go strings are immutable byte
  sequences, and the conversion `[]byte(s)` yields exactly those bytes);
* the Go struct `Minhash` becomes a Lean structure, and every method
  becomes a pure function from the receiver (and arguments) to the new
  receiver value;
* a Go slice access `xs[i]` that can panic (index out of range) is
  modelled by `Option`: the enclosing operation returns `none` exactly
  when the Go code would panic;
* the `float64` similarity estimate is modelled by the exact rational
  number the Go code's division denotes (both operands are integers, so
  the mathematical quotient is what the code computes, up to rounding).
-/

/-- `2 ^ 64`, the modulus of Go `uint64` arithmetic. -/
def U64 : Nat := 2 ^ 64

/-- A Go byte slice `[]byte`, modelled as the list of its byte values. -/
abbrev Bytes := List Nat

/-- A Go string, modelled as the list of its bytes; `[]byte(s)` is the
identity on this representation. -/
abbrev GoString := List Nat

/-- Go: `type HashFunc func([]byte) (uint64, uint64)`. -/
abbrev HashFunc := Bytes → Nat × Nat

/-- Go: `type Minhash struct { sig []uint64; hashFunc HashFunc }`. -/
structure Minhash where
  sig : List Nat
  hashFunc : HashFunc

/-- The sole error value of the package. -/
inductive GoError where
  | sigSizeMismatch
  deriving DecidableEq

/-- Go: `var ErrSigSizeMismatch = errors.New("signature sizes do not match")`. -/
def ErrSigSizeMismatch : GoError := GoError.sigSizeMismatch

/-- Go: `NewMinhash(hashFunc, size)` builds a signature of `size` slots,
each initialised to `^uint64(0) = 2 ^ 64 - 1`. -/
def NewMinhash (hashFunc : HashFunc) (size : Nat) : Minhash :=
  { sig := List.replicate size (U64 - 1), hashFunc := hashFunc }

/-- Go: `NewMinhashFromSigs(hashFunc, existingSig)` copies the provided
signature into a fresh engine (the copy is the identity on list values). -/
def NewMinhashFromSigs (hashFunc : HashFunc) (existingSig : List Nat) : Minhash :=
  { sig := existingSig, hashFunc := hashFunc }

/-- The loop body of Go `Push`: walk the signature with index `i`,
replacing each slot `hashVal` by `v1 + uint64(i)*v2` (uint64 wraparound)
whenever that value is strictly smaller. -/
def pushSig (v1 v2 : Nat) : Nat → List Nat → List Nat
  | _, [] => []
  | i, hashVal :: rest =>
      let newHashVal := (v1 + i * v2) % U64
      (if newHashVal < hashVal then newHashVal else hashVal) ::
        pushSig v1 v2 (i + 1) rest

/-- Go: `(m *Minhash) Push(b []byte)`: hash `b` once obtaining `(v1, v2)`
and update every slot. -/
def Push (m : Minhash) (b : Bytes) : Minhash :=
  let v := m.hashFunc b
  { m with sig := pushSig v.1 v.2 0 m.sig }

/-- Go: `(m *Minhash) PushAll(bb [][]byte)`: loop over `bb` calling `Push`. -/
def PushAll (m : Minhash) : List Bytes → Minhash
  | [] => m
  | b :: bb => PushAll (Push m b) bb

/-- Go: the conversion `[]byte(r)` copies a string's bytes into a slice;
on the byte-list representation it is the identity. -/
def stringToBytes (r : GoString) : Bytes := r

/-- Go: `(m *Minhash) PushStrings(ss []string)`: loop over `ss` calling
`Push([]byte(r))` on each string `r`. -/
def PushStrings (m : Minhash) : List GoString → Minhash
  | [] => m
  | r :: ss => PushStrings (Push m (stringToBytes r)) ss

/-- The loop of Go `Merge`: walk `other.sig` with index `i`, reading
`m.sig[i]` — an access that panics when `i` is out of range for `m.sig`,
modelled by `none`. -/
def mergeLoop : List Nat → Nat → List Nat → Option (List Nat)
  | sig, _, [] => some sig
  | sig, i, v :: rest =>
      match sig[i]? with
      | none => none
      | some cur => mergeLoop (if v < cur then sig.set i v else sig) (i + 1) rest

/-- Go: `(m *Minhash) Merge(other *Minhash)`: pointwise minimum over
`other.sig`'s indices; `none` exactly when the Go code would panic with
an index out of range. -/
def Merge (m other : Minhash) : Option Minhash :=
  (mergeLoop m.sig 0 other.sig).map fun s => { m with sig := s }

/-- Go: `(m *Minhash) Signature() []uint64 { return m.sig }`. -/
def Signature (m : Minhash) : List Nat := m.sig

/-- Go slice semantics for the value returned by `Signature`: the method
returns the slice header `m.sig` itself, sharing its backing array with
the engine (no copy is made).  Hence a caller store `ret[i] = v` into the
returned slice writes the engine's own signature array.
`signatureThenSet m i v` is the engine state observed after
`ret := m.Signature(); ret[i] = v`. -/
def signatureThenSet (m : Minhash) (i v : Nat) : Minhash :=
  { m with sig := (Signature m).set i v }

/-- The counting loop of Go `Similarity` (run only after the equal-length
check): count the indices where the two signatures agree. -/
def intersectCount : List Nat → List Nat → Nat
  | a :: as, b :: bs => (if a = b then 1 else 0) + intersectCount as bs
  | _, _ => 0

/-- Go: `(m *Minhash) Similarity(other *Minhash) (float64, error)`: on a
length mismatch return `(0, ErrSigSizeMismatch)` at once; otherwise
return the matching-slot count divided by the signature length, and no
error.  The `float64` result is modelled by the exact rational quotient. -/
def Similarity (m other : Minhash) : ℚ × Option GoError :=
  if m.sig.length ≠ other.sig.length then
    (0, some ErrSigSizeMismatch)
  else
    ((intersectCount m.sig other.sig : ℚ) / (m.sig.length : ℚ), none)

/-- The simulated `i`-th hash value Go `Push` derives for element `b`:
`h_i = v1 + i * v2` in uint64 wraparound arithmetic. -/
def hashAt (m : Minhash) (b : Bytes) (i : Nat) : Nat :=
  ((m.hashFunc b).1 + i * (m.hashFunc b).2) % U64

/-- Spec-side definition, from the words of the batch-equivalence
property: the signature obtained by sequentially calling `Push` on each
element in the given order. -/
def pushSequentially (m : Minhash) (bb : List Bytes) : Minhash :=
  List.foldl Push m bb

-- ### Basic lemmas about the loops

theorem pushSig_length (v1 v2 : Nat) : ∀ (i : Nat) (sig : List Nat),
    (pushSig v1 v2 i sig).length = sig.length := by
  intro i sig
  induction sig generalizing i with
  | nil => rfl
  | cons hashVal rest ih => simp [pushSig, ih]

theorem pushSig_getElem? (v1 v2 : Nat) : ∀ (i j : Nat) (sig : List Nat),
    (pushSig v1 v2 i sig)[j]? =
      sig[j]?.map (fun h => min ((v1 + (i + j) * v2) % U64) h) := by
  intro i j sig
  induction sig generalizing i j with
  | nil => simp [pushSig]
  | cons hashVal rest ih =>
    cases j with
    | zero =>
      simp only [pushSig, List.getElem?_cons_zero, Option.map_some]
      have h : (if (v1 + i * v2) % U64 < hashVal then (v1 + i * v2) % U64 else hashVal)
          = min ((v1 + i * v2) % U64) hashVal := by
        rw [Nat.min_def]
        split <;> split <;> omega
      simp only [Nat.add_zero]
      rw [h]
      rfl
    | succ j' =>
      simp only [pushSig, List.getElem?_cons_succ]
      rw [ih (i + 1) j']
      have harith : i + 1 + j' = i + (j' + 1) := by omega
      rw [harith]

theorem Push_sig_getElem? (m : Minhash) (b : Bytes) (j : Nat) :
    (Push m b).sig[j]? = m.sig[j]?.map (fun h => min (hashAt m b j) h) := by
  show (pushSig (m.hashFunc b).1 (m.hashFunc b).2 0 m.sig)[j]? = _
  rw [pushSig_getElem?]
  simp [hashAt]

theorem Push_hashFunc (m : Minhash) (b : Bytes) :
    (Push m b).hashFunc = m.hashFunc := rfl

theorem Push_sig_length (m : Minhash) (b : Bytes) :
    (Push m b).sig.length = m.sig.length := by
  show (pushSig (m.hashFunc b).1 (m.hashFunc b).2 0 m.sig).length = _
  exact pushSig_length _ _ _ _

theorem mergeLoop_some : ∀ (other : List Nat) (sig : List Nat) (i : Nat),
    i + other.length ≤ sig.length →
    ∃ s, mergeLoop sig i other = some s ∧ s.length = sig.length ∧
      (∀ j, j < i → s[j]? = sig[j]?) ∧
      (∀ j, i + other.length ≤ j → s[j]? = sig[j]?) ∧
      (∀ k, k < other.length →
        s[i + k]? = some (min (sig.getD (i + k) 0) (other.getD k 0))) := by
  intro other
  induction other with
  | nil =>
    intro sig i _
    exact ⟨sig, rfl, rfl, fun _ _ => rfl, fun _ _ => rfl, fun k hk => absurd hk (by simp)⟩
  | cons v rest ih =>
    intro sig i hle
    have hi : i < sig.length := by
      simp only [List.length_cons] at hle
      omega
    have hcur : sig[i]? = some sig[i] := List.getElem?_eq_getElem hi
    set sig' := if v < sig[i] then sig.set i v else sig with hsig'
    have hlen' : sig'.length = sig.length := by
      rw [hsig']
      split <;> simp
    have hne' : ∀ j, j ≠ i → sig'[j]? = sig[j]? := by
      intro j hj
      rw [hsig']
      split
      · exact List.getElem?_set_ne (Ne.symm hj)
      · rfl
    have hat' : sig'[i]? = some (min sig[i] v) := by
      rw [hsig']
      rcases Nat.lt_or_ge v sig[i] with hlt | hge
      · rw [if_pos hlt, List.getElem?_set_self hi]
        have hmin : min sig[i] v = v := by omega
        rw [hmin]
      · rw [if_neg (Nat.not_lt.mpr hge), hcur]
        have hmin : min sig[i] v = sig[i] := by omega
        rw [hmin]
    have hstep : mergeLoop sig i (v :: rest) = mergeLoop sig' (i + 1) rest := by
      rw [mergeLoop, hcur]
    obtain ⟨s, hs, hslen, hfront, hback, hwin⟩ :=
      ih sig' (i + 1) (by rw [hlen']; simp only [List.length_cons] at hle; omega)
    refine ⟨s, by rw [hstep, hs], by rw [hslen, hlen'], ?_, ?_, ?_⟩
    · intro j hj
      rw [hfront j (by omega), hne' j (by omega)]
    · intro j hj
      simp only [List.length_cons] at hj
      rw [hback j (by omega), hne' j (by omega)]
    · intro k hk
      cases k with
      | zero =>
        rw [Nat.add_zero, hfront i (by omega), hat']
        have h1 : sig.getD i 0 = sig[i] := by
          simp [List.getD_eq_getElem?_getD, hcur]
        have h2 : (v :: rest).getD 0 0 = v := rfl
        rw [h1, h2]
      | succ k' =>
        simp only [List.length_cons] at hk
        have hw := hwin k' (by omega)
        have harith : i + (k' + 1) = i + 1 + k' := by omega
        rw [harith, hw]
        have h3 : sig'.getD (i + 1 + k') 0 = sig.getD (i + 1 + k') 0 := by
          simp only [List.getD_eq_getElem?_getD]
          rw [hne' _ (by omega)]
        have h4 : (v :: rest).getD (k' + 1) 0 = rest.getD k' 0 := rfl
        rw [h3, h4]

theorem mergeLoop_none : ∀ (other : List Nat), other ≠ [] → ∀ (sig : List Nat) (i : Nat),
    sig.length < i + other.length → mergeLoop sig i other = none := by
  intro other
  induction other with
  | nil => intro h; exact absurd rfl h
  | cons v rest ih =>
    intro _ sig i hlt
    rcases Nat.lt_or_ge i sig.length with hi | hi
    · have hcur : sig[i]? = some sig[i] := List.getElem?_eq_getElem hi
      have hstep : mergeLoop sig i (v :: rest) =
          mergeLoop (if v < sig[i] then sig.set i v else sig) (i + 1) rest := by
        rw [mergeLoop, hcur]
      rw [hstep]
      have hrest : rest ≠ [] := by
        intro he
        subst he
        simp only [List.length_cons, List.length_nil] at hlt
        omega
      apply ih hrest
      have hlen : (if v < sig[i] then sig.set i v else sig).length = sig.length := by
        split <;> simp
      rw [hlen]
      simp only [List.length_cons] at hlt
      omega
    · have hcur : sig[i]? = none := List.getElem?_eq_none (by omega)
      rw [mergeLoop, hcur]

theorem intersectCount_le_length : ∀ (xs ys : List Nat), intersectCount xs ys ≤ xs.length := by
  intro xs
  induction xs with
  | nil => intro ys; cases ys <;> simp [intersectCount]
  | cons x xs ih =>
    intro ys
    cases ys with
    | nil => simp [intersectCount]
    | cons y ys =>
      simp only [intersectCount, List.length_cons]
      have hih := ih ys
      split <;> omega

theorem intersectCount_self : ∀ (xs : List Nat), intersectCount xs xs = xs.length := by
  intro xs
  induction xs with
  | nil => rfl
  | cons x xs ih =>
    show (if x = x then 1 else 0) + intersectCount xs xs = xs.length + 1
    rw [if_pos rfl, ih]
    omega

theorem Minhash.eq_of_fields : ∀ {m₁ m₂ : Minhash},
    m₁.sig = m₂.sig → m₁.hashFunc = m₂.hashFunc → m₁ = m₂
  | { sig := _, hashFunc := _ }, { sig := _, hashFunc := _ }, rfl, rfl => rfl

theorem PushAll_eq_foldl (m : Minhash) : ∀ (bb : List Bytes),
    PushAll m bb = List.foldl Push m bb := by
  intro bb
  induction bb generalizing m with
  | nil => rfl
  | cons b bb ih => simp only [PushAll, List.foldl_cons, ih]

theorem Push_comm (m : Minhash) (a b : Bytes) : Push (Push m a) b = Push (Push m b) a := by
  apply Minhash.eq_of_fields
  · apply List.ext_getElem?
    intro j
    rw [Push_sig_getElem?, Push_sig_getElem?, Push_sig_getElem?, Push_sig_getElem?]
    have e1 : hashAt (Push m a) b j = hashAt m b j := rfl
    have e2 : hashAt (Push m b) a j = hashAt m a j := rfl
    rw [e1, e2]
    cases m.sig[j]? with
    | none => rfl
    | some x =>
      simp only [Option.map_some', min_left_comm]
  · rfl

-- ### Concrete inputs used by the witnesses

/-- A concrete two-output hash function used by the witnesses. -/
def exHashFunc : HashFunc := fun b => (b.foldl (fun a x => a + x) 7, b.length + 1)

/-- A fresh three-slot engine. -/
def exEngine : Minhash := NewMinhash exHashFunc 3

/-- A three-slot engine built from an existing signature. -/
def exEngineB : Minhash := NewMinhashFromSigs exHashFunc [5, 1, 7]

/-- A second three-slot engine built from an existing signature. -/
def exEngineA : Minhash := NewMinhashFromSigs exHashFunc [3, 4, 2]

/-- A fresh two-slot engine. -/
def exSmall : Minhash := NewMinhash exHashFunc 2

/-- A fresh one-slot engine. -/
def exFresh1 : Minhash := NewMinhash exHashFunc 1

theorem Similarity_eq_of_length_eq (a b : Minhash)
    (hlen : a.sig.length = b.sig.length) :
    Similarity a b = ((intersectCount a.sig b.sig : ℚ) / (a.sig.length : ℚ), none) := by
  unfold Similarity
  rw [if_neg (not_not_intro hlen)]

-- ### Claim theorems

/-- C1: for every engine and element `b`, `Push b` obtains `(v1, v2)` from
the bound hash function (evaluated once, by construction of `Push`) and,
for every slot index `i` below the signature length, replaces slot `i`
with `h_i = v1 + i * v2` computed modulo `2 ^ 64` exactly when `h_i` is
strictly less than the slot's current value, leaving the slot unchanged
otherwise; afterwards slot `i` holds the minimum of its previous value and
`h_i`, and the signature length is unchanged. -/
theorem C1_push_slot_minimum (m : Minhash) (b : Bytes) (i : Nat)
    (hi : i < m.sig.length) :
    (Push m b).sig[i]? =
      some (if hashAt m b i < m.sig.getD i 0 then hashAt m b i else m.sig.getD i 0) ∧
    (Push m b).sig[i]? = some (min (m.sig.getD i 0) (hashAt m b i)) ∧
    (Push m b).sig.length = m.sig.length := by
  have hgd : m.sig.getD i 0 = m.sig[i] := by
    simp [List.getD_eq_getElem?_getD, List.getElem?_eq_getElem hi]
  refine ⟨?_, ?_, Push_sig_length m b⟩
  · rw [Push_sig_getElem?, List.getElem?_eq_getElem hi, Option.map_some', hgd]
    congr 1
    rw [Nat.min_def]
    split <;> split <;> omega
  · rw [Push_sig_getElem?, List.getElem?_eq_getElem hi, Option.map_some', hgd, Nat.min_comm]

/-- Witness for C1 at a concrete engine, element and slot index. -/
theorem C1_push_slot_minimum_witness :
    0 < exEngine.sig.length ∧
    ((Push exEngine [2, 3]).sig[0]? =
        some (if hashAt exEngine [2, 3] 0 < exEngine.sig.getD 0 0 then hashAt exEngine [2, 3] 0
              else exEngine.sig.getD 0 0) ∧
      (Push exEngine [2, 3]).sig[0]? =
        some (min (exEngine.sig.getD 0 0) (hashAt exEngine [2, 3] 0)) ∧
      (Push exEngine [2, 3]).sig.length = exEngine.sig.length) :=
  ⟨by decide, C1_push_slot_minimum exEngine [2, 3] 0 (by decide)⟩

/-- C8: `Push` is idempotent under duplicate elements: pushing the same
element again immediately afterwards leaves the engine (in particular its
signature) unchanged. -/
theorem C8_push_idempotent (m : Minhash) (b : Bytes) :
    Push (Push m b) b = Push m b := by
  apply Minhash.eq_of_fields
  · apply List.ext_getElem?
    intro j
    rw [Push_sig_getElem?, Push_sig_getElem?]
    have e1 : hashAt (Push m b) b j = hashAt m b j := rfl
    rw [e1]
    cases hj : m.sig[j]? with
    | none => rfl
    | some x =>
      simp only [Option.map_some']
      rw [← min_assoc, min_self]
  · rfl

/-- C9: `PushAll` (and `PushStrings`, after the byte conversion of each
string) produce the same engine as sequentially calling `Push` on each
element in the same order. -/
theorem C9_batch_equivalence (m : Minhash) (bb : List Bytes) (ss : List GoString) :
    PushAll m bb = pushSequentially m bb ∧
    PushStrings m ss = pushSequentially m (ss.map stringToBytes) := by
  refine ⟨PushAll_eq_foldl m bb, ?_⟩
  induction ss generalizing m with
  | nil => rfl
  | cons r ss ih =>
    simp only [PushStrings, List.map_cons, pushSequentially, List.foldl_cons]
    exact ih (Push m (stringToBytes r))

/-- C7: pushing a multiset of elements in either of two orders (any two
permutations) onto the same engine yields identical engines, in particular
slot-for-slot equal signatures. -/
theorem C7_order_independence (m : Minhash) (l1 l2 : List Bytes)
    (hp : l1.Perm l2) :
    PushAll m l1 = PushAll m l2 := by
  rw [PushAll_eq_foldl, PushAll_eq_foldl]
  exact hp.foldl_eq' (fun x _ y _ z => Push_comm z x y) m

/-- Witness for C7 at a concrete engine and a concrete permutation. -/
theorem C7_order_independence_witness :
    ([[1], [2, 3], []] : List Bytes).Perm [[2, 3], [], [1]] ∧
    PushAll exEngine [[1], [2, 3], []] = PushAll exEngine [[2, 3], [], [1]] :=
  ⟨by decide, C7_order_independence exEngine [[1], [2, 3], []] [[2, 3], [], [1]] (by decide)⟩

/-- C2: for engines `a`, `b` with equal signature lengths, `a.Merge(b)`
succeeds and every slot `i` of the result equals the minimum of the
pre-merge values of `a` and `b` at `i` (hence is at most `a`'s pre-merge
value at `i`); the hash binding and the signature length are unchanged.
(`b` itself is untouched: in this pure embedding `Merge` only produces the
new receiver.) -/
theorem C2_merge_pointwise_min (a b : Minhash) (i : Nat)
    (hlen : a.sig.length = b.sig.length) (hi : i < a.sig.length) :
    ∃ a2, Merge a b = some a2 ∧ a2.hashFunc = a.hashFunc ∧
      a2.sig.length = a.sig.length ∧
      a2.sig[i]? = some (min (a.sig.getD i 0) (b.sig.getD i 0)) ∧
      min (a.sig.getD i 0) (b.sig.getD i 0) ≤ a.sig.getD i 0 := by
  obtain ⟨s, hs, hslen, _, _, hwin⟩ := mergeLoop_some b.sig a.sig 0 (by omega)
  refine ⟨{ a with sig := s }, ?_, rfl, hslen, ?_, Nat.min_le_left _ _⟩
  · unfold Merge
    rw [hs]
    rfl
  · have hw := hwin i (by omega)
    rw [Nat.zero_add] at hw
    exact hw

/-- Witness for C2 at two concrete three-slot engines and slot index 1. -/
theorem C2_merge_pointwise_min_witness :
    exEngineA.sig.length = exEngineB.sig.length ∧ 1 < exEngineA.sig.length ∧
    (∃ a2, Merge exEngineA exEngineB = some a2 ∧ a2.hashFunc = exEngineA.hashFunc ∧
      a2.sig.length = exEngineA.sig.length ∧
      a2.sig[1]? = some (min (exEngineA.sig.getD 1 0) (exEngineB.sig.getD 1 0)) ∧
      min (exEngineA.sig.getD 1 0) (exEngineB.sig.getD 1 0) ≤ exEngineA.sig.getD 1 0) :=
  ⟨by decide, by decide,
   C2_merge_pointwise_min exEngineA exEngineB 1 (by decide) (by decide)⟩

/-- C10: when the other signature is no longer than the receiver's,
`Merge` performs no out-of-range access (it returns a result rather than
the panic value `none`) and leaves every receiver slot at an index at or
past the other signature's length unchanged; when the other signature is
strictly longer, `Merge` indexes past the end of the receiver's signature
(the panic, modelled as `none`). -/
theorem C10_merge_range_safety (m other : Minhash) :
    (other.sig.length ≤ m.sig.length →
      ∃ m2, Merge m other = some m2 ∧ m2.sig.length = m.sig.length ∧
        ∀ j, other.sig.length ≤ j → m2.sig[j]? = m.sig[j]?) ∧
    (m.sig.length < other.sig.length → Merge m other = none) := by
  constructor
  · intro hle
    obtain ⟨s, hs, hslen, _, hback, _⟩ := mergeLoop_some other.sig m.sig 0 (by omega)
    refine ⟨{ m with sig := s }, ?_, hslen, ?_⟩
    · unfold Merge
      rw [hs]
      rfl
    · intro j hj
      exact hback j (by omega)
  · intro hlt
    have hne : other.sig ≠ [] := by
      intro he
      rw [he] at hlt
      simp at hlt
    unfold Merge
    rw [mergeLoop_none other.sig hne m.sig 0 (by omega)]
    rfl

/-- Witness for C10: a shorter other signature merges without panic and
keeps the tail slot, a longer other signature panics. -/
theorem C10_merge_range_safety_witness :
    (∃ m2, Merge exEngine exSmall = some m2 ∧ m2.sig.length = exEngine.sig.length ∧
      ∀ j, exSmall.sig.length ≤ j → m2.sig[j]? = exEngine.sig[j]?) ∧
    Merge exSmall exEngine = none :=
  ⟨(C10_merge_range_safety exEngine exSmall).1 (by decide),
   (C10_merge_range_safety exSmall exEngine).2 (by decide)⟩

/-- C3: for engines with equal, positive signature length, `Similarity`
returns (with no error) the number of slot indices holding exactly equal
values divided by the signature length, and that value lies in `[0, 1]`.
(Positivity of the length is the spec's construction invariant `size > 0`;
at length `0` the Go code divides `0.0` by `0.0`.) -/
theorem C3_similarity_ratio_bounds (a b : Minhash)
    (hlen : a.sig.length = b.sig.length) (hpos : 0 < a.sig.length) :
    (Similarity a b).1 = (intersectCount a.sig b.sig : ℚ) / (a.sig.length : ℚ) ∧
    (Similarity a b).2 = none ∧
    0 ≤ (Similarity a b).1 ∧ (Similarity a b).1 ≤ 1 := by
  have hval : Similarity a b =
      ((intersectCount a.sig b.sig : ℚ) / (a.sig.length : ℚ), none) := by
    unfold Similarity
    rw [if_neg (not_not_intro hlen)]
  rw [hval]
  have hnum : (0 : ℚ) ≤ (intersectCount a.sig b.sig : ℚ) := Nat.cast_nonneg _
  have hden : (0 : ℚ) < (a.sig.length : ℚ) := by exact_mod_cast hpos
  refine ⟨rfl, rfl, div_nonneg hnum (le_of_lt hden), ?_⟩
  rw [div_le_one hden]
  exact_mod_cast intersectCount_le_length a.sig b.sig

/-- Witness for C3 at two concrete three-slot engines. -/
theorem C3_similarity_ratio_bounds_witness :
    exEngineA.sig.length = exEngineB.sig.length ∧ 0 < exEngineA.sig.length ∧
    ((Similarity exEngineA exEngineB).1 =
        (intersectCount exEngineA.sig exEngineB.sig : ℚ) / (exEngineA.sig.length : ℚ) ∧
      (Similarity exEngineA exEngineB).2 = none ∧
      0 ≤ (Similarity exEngineA exEngineB).1 ∧ (Similarity exEngineA exEngineB).1 ≤ 1) :=
  ⟨by decide, by decide,
   C3_similarity_ratio_bounds exEngineA exEngineB (by decide) (by decide)⟩

/-- C4: `Similarity` reports `ErrSigSizeMismatch` exactly when the two
signature lengths differ, and in that case returns the pair
`(0, ErrSigSizeMismatch)` directly from the guard, before any counting
(the error branch performs no computation, and `Similarity` mutates
nothing: it is a pure read in this embedding).  Every other operation is a
total function; in particular `Merge` succeeds on its valid inputs (equal
signature lengths), so `Similarity` is the only operation returning an
error value. -/
theorem C4_similarity_error_iff (a b : Minhash) :
    ((Similarity a b).2 = some ErrSigSizeMismatch ↔ a.sig.length ≠ b.sig.length) ∧
    (a.sig.length ≠ b.sig.length → Similarity a b = (0, some ErrSigSizeMismatch)) ∧
    (a.sig.length = b.sig.length → (Similarity a b).2 = none) ∧
    (a.sig.length = b.sig.length → ∃ a2, Merge a b = some a2) := by
  by_cases h : a.sig.length = b.sig.length
  · have h2 : (Similarity a b).2 = none := by
      unfold Similarity
      rw [if_neg (not_not_intro h)]
    refine ⟨⟨fun hs => ?_, fun hne => absurd h hne⟩, fun hne => absurd h hne,
      fun _ => h2, fun _ => ?_⟩
    · rw [h2] at hs
      exact Option.noConfusion hs
    · obtain ⟨s, hs, _⟩ := mergeLoop_some b.sig a.sig 0 (by omega)
      exact ⟨{ a with sig := s }, by unfold Merge; rw [hs]; rfl⟩
  · have h2 : Similarity a b = (0, some ErrSigSizeMismatch) := by
      unfold Similarity
      rw [if_pos h]
    exact ⟨⟨fun _ => h, fun _ => by rw [h2]⟩, fun _ => h2,
      fun he => absurd he h, fun he => absurd he h⟩

/-- Witness for C4: a concrete mismatched pair yields the error pair, a
concrete matched pair yields no error and a successful merge. -/
theorem C4_similarity_error_iff_witness :
    exEngine.sig.length ≠ exSmall.sig.length ∧
    Similarity exEngine exSmall = (0, some ErrSigSizeMismatch) ∧
    exEngine.sig.length = exEngineB.sig.length ∧
    (Similarity exEngine exEngineB).2 = none ∧
    (∃ a2, Merge exEngine exEngineB = some a2) :=
  ⟨by decide, (C4_similarity_error_iff exEngine exSmall).2.1 (by decide), by decide,
   (C4_similarity_error_iff exEngine exEngineB).2.2.1 (by decide),
   (C4_similarity_error_iff exEngine exEngineB).2.2.2 (by decide)⟩

/-- C5: `NewMinhash hashFunc size` with `size > 0` produces a signature of
exactly `size` slots, each holding `2 ^ 64 - 1`, and `Similarity` between
two freshly constructed, never-pushed engines of that size returns `1`
with no error. -/
theorem C5_new_engine_initial_state (h1 h2 : HashFunc) (size : Nat)
    (hpos : 0 < size) :
    (NewMinhash h1 size).sig.length = size ∧
    (∀ i, i < size → (NewMinhash h1 size).sig[i]? = some (U64 - 1)) ∧
    Similarity (NewMinhash h1 size) (NewMinhash h2 size) = (1, none) := by
  refine ⟨by simp [NewMinhash], fun i hi => ?_, ?_⟩
  · show (List.replicate size (U64 - 1))[i]? = some (U64 - 1)
    exact List.getElem?_replicate_of_lt hi
  · have hlen : (NewMinhash h1 size).sig.length = (NewMinhash h2 size).sig.length := by
      simp [NewMinhash]
    unfold Similarity
    rw [if_neg (not_not_intro hlen)]
    have hcnt : intersectCount (NewMinhash h1 size).sig (NewMinhash h2 size).sig = size := by
      show intersectCount (List.replicate size (U64 - 1)) (List.replicate size (U64 - 1)) = size
      rw [intersectCount_self, List.length_replicate]
    rw [hcnt]
    have hlen1 : (NewMinhash h1 size).sig.length = size := by simp [NewMinhash]
    rw [hlen1]
    have hsz : ((size : ℚ)) ≠ 0 := by
      exact_mod_cast Nat.pos_iff_ne_zero.mp hpos
    rw [div_self hsz]

/-- Witness for C5 at two fresh two-slot engines. -/
theorem C5_new_engine_initial_state_witness :
    0 < 2 ∧ (NewMinhash exHashFunc 2).sig.length = 2 ∧
    (NewMinhash exHashFunc 2).sig[1]? = some (U64 - 1) ∧
    Similarity (NewMinhash exHashFunc 2) (NewMinhash exHashFunc 2) = (1, none) :=
  ⟨by decide,
   (C5_new_engine_initial_state exHashFunc exHashFunc 2 (by decide)).1,
   (C5_new_engine_initial_state exHashFunc exHashFunc 2 (by decide)).2.1 1 (by decide),
   (C5_new_engine_initial_state exHashFunc exHashFunc 2 (by decide)).2.2⟩

/-- C6 counterexample: the Go `Signature` method returns the internal
slice itself; at a concrete fresh one-slot engine, storing `0` through the
returned slice changes the engine's subsequently observed signature and
its `Similarity` against a fresh engine of the same size, falsifying the
claim that mutating the returned sequence leaves the engine's observable
behaviour unchanged (and the write propagates, so the returned sequence is
not a copy). -/
theorem C6_signature_alias_counterexample :
    Signature (signatureThenSet exFresh1 0 0) ≠ Signature exFresh1 ∧
    (Similarity (signatureThenSet exFresh1 0 0) (NewMinhash exHashFunc 1)).1 ≠
      (Similarity exFresh1 (NewMinhash exHashFunc 1)).1 := by
  refine ⟨by decide, ?_⟩
  rw [Similarity_eq_of_length_eq _ _ (by decide),
    Similarity_eq_of_length_eq _ _ (by decide)]
  have c1 : intersectCount (signatureThenSet exFresh1 0 0).sig
      (NewMinhash exHashFunc 1).sig = 0 := by decide
  have c2 : intersectCount exFresh1.sig (NewMinhash exHashFunc 1).sig = 1 := by decide
  have l1 : (signatureThenSet exFresh1 0 0).sig.length = 1 := by decide
  have l2 : exFresh1.sig.length = 1 := by decide
  rw [c1, c2, l1, l2]
  norm_num

/-- C6 amended: `Signature` returns the engine's internal slice itself,
not a copy: a caller store through the returned slice at a valid index
with a fresh value is a store into the engine's signature and changes the
result of a subsequent `Signature` call. -/
theorem C6_signature_returns_alias (m : Minhash) (i v : Nat)
    (hi : i < m.sig.length) (hne : m.sig.getD i 0 ≠ v) :
    Signature (signatureThenSet m i v) = m.sig.set i v ∧
    Signature (signatureThenSet m i v) ≠ Signature m := by
  refine ⟨rfl, fun he => ?_⟩
  have he' : m.sig.set i v = m.sig := he
  have h1 : (m.sig.set i v)[i]? = m.sig[i]? := by rw [he']
  rw [List.getElem?_set_self hi, List.getElem?_eq_getElem hi] at h1
  have h2 : v = m.sig[i] := Option.some.inj h1
  have hgd : m.sig.getD i 0 = m.sig[i] := by
    simp [List.getD_eq_getElem?_getD, List.getElem?_eq_getElem hi]
  exact hne (by rw [hgd, ← h2])

/-- Witness for the amended C6 at a concrete engine, index and value. -/
theorem C6_signature_returns_alias_witness :
    0 < exFresh1.sig.length ∧ exFresh1.sig.getD 0 0 ≠ 0 ∧
    (Signature (signatureThenSet exFresh1 0 0) = exFresh1.sig.set 0 0 ∧
      Signature (signatureThenSet exFresh1 0 0) ≠ Signature exFresh1) :=
  ⟨by decide, by decide, C6_signature_returns_alias exFresh1 0 0 (by decide) (by decide)⟩
